import Mathlib

/-!
Verification of the TaigiCC converter (`src/main.py`).

The embedding models the `Converter` class:
* texts are lists of characters (Python strings are sequences of code points);
* weights are rationals (the Python code does ordinary float arithmetic on
  small decimal literals; `ℚ` gives the exact arithmetic of the formulas);
* a directional dictionary is an association list from a key (list of
  characters) to the ordered candidate list, mirroring a Python `dict` of
  lists built by insertion order with append;
* the `while` scan loop of `convert` is given explicit fuel; `convert`
  supplies `text.length` fuel, and fuel irrelevance is proved separately,
  capturing termination of the loop.
-/

namespace TaigiCC

/-- A dictionary entry of the JSON payload.  The two text fields (`台文`,
here `tw`, and `華文`, here `cn`) are modelled as `Option` to capture their
possible absence (`entry['台文']` raises on a missing key, line 22);
the weight field is optional in the source (`entry.get('權重', 0.0)`). -/
structure Entry where
  tw : Option (List Char)
  cn : Option (List Char)
  weight : Option ℚ

/-- The ordered list of `(replacement, base_weight)` candidates of one key. -/
abbrev Candidates := List (List Char × ℚ)

/-- A directional index: association list from key to its candidates,
in key-insertion order, mirroring a Python `dict` of lists. -/
abbrev Dict := List (List Char × Candidates)

/-- Lookup of a key, `dictionary[substring]` guarded by
`substring in dictionary` (lines 48–49). -/
def dictLookup (dictionary : Dict) (k : List Char) : Option Candidates :=
  dictionary.lookup k

/-- The insertion idiom of `__init__` (lines 26–28 and 30–32): create an
empty list for a fresh key, then append the pair to the key's list. -/
def dictInsert (dictionary : Dict) (k : List Char) (v : List Char × ℚ) : Dict :=
  match dictionary with
  | [] => [(k, [v])]
  | (k', vs) :: rest =>
    if k' = k then (k', vs ++ [v]) :: rest
    else (k', vs) :: dictInsert rest k v

/-- Error of `build`: an entry misses one of the two text fields
(a `KeyError` from lines 22–23 of the source). -/
inductive LoadError
  | malformedEntry
deriving DecidableEq

/-- Error of `convert`: the mode string is neither `t2c` nor `c2t`
(the `ValueError` of line 66). -/
inductive ConvError
  | unsupportedDirection
deriving DecidableEq

/-- The dictionary store: both directional indexes (lines 18–19). -/
structure Store where
  tw_to_zh : Dict
  zh_to_tw : Dict

/-- The entry loop of `__init__` (lines 21–32), threading both indexes.
A missing text field aborts the whole load. -/
def buildGo : List Entry → Dict → Dict → Except LoadError Store
  | [], tw_to_zh, zh_to_tw => .ok ⟨tw_to_zh, zh_to_tw⟩
  | e :: rest, tw_to_zh, zh_to_tw =>
    match e.tw, e.cn with
    | some tw, some cn =>
      let weight := e.weight.getD 0
      buildGo rest (dictInsert tw_to_zh tw (cn, weight)) (dictInsert zh_to_tw cn (tw, weight))
    | _, _ => .error .malformedEntry

/-- `Converter.__init__` restricted to its core: build both directional
indexes from the entry list (lines 18–32). -/
def build (entries : List Entry) : Except LoadError Store :=
  buildGo entries [] []

/-- `Converter.calculate_weight` (lines 34–36):
`length_weight = len(text) * 0.1; return length_weight + base_weight`. -/
def calculate_weight (text : List Char) (base_weight : ℚ) : ℚ :=
  let length_weight := (text.length : ℚ) * 0.1
  length_weight + base_weight

/-- The running best of `find_best_match` (lines 40–43).  `bestWeight = none`
models the initial `float('-inf')`: any candidate's weight exceeds it. -/
structure BestState where
  bestMatch : Option (List Char)
  bestReplacement : Option (List Char)
  bestWeight : Option ℚ
  bestLength : Nat

/-- The comparison `total_weight > best_weight` (line 52), where the initial
best weight is `-inf` (modelled by `none`). -/
def gtBest (w : ℚ) : Option ℚ → Bool
  | none => true
  | some b => decide (b < w)

/-- The body of the inner candidate loop of `find_best_match` (lines 49–56):
score the candidate and replace the best on a strictly greater score. -/
def candStep (substring : List Char) (length : Nat) (st : BestState)
    (rw : List Char × ℚ) : BestState :=
  let total_weight := calculate_weight substring rw.2
  if gtBest total_weight st.bestWeight then
    ⟨some substring, some rw.1, some total_weight, length⟩
  else st

/-- The body of the outer length loop of `find_best_match` (lines 45–56):
slice the substring, and if it is a key, fold the candidate loop over
its candidate list. -/
def lengthStep (text : List Char) (pos : Nat) (dictionary : Dict)
    (st : BestState) (length : Nat) : BestState :=
  let substring := (text.drop pos).take length
  match dictLookup dictionary substring with
  | none => st
  | some cands => cands.foldl (candStep substring length) st

/-- `Converter.find_best_match` (lines 38–58): scan lengths `1` to
`len(text) - pos` and return the best `(match, replacement, length)`. -/
def find_best_match (text : List Char) (pos : Nat) (dictionary : Dict) :
    Option (List Char) × Option (List Char) × Nat :=
  let st := (List.range' 1 (text.length - pos)).foldl (lengthStep text pos dictionary)
    ⟨none, none, none, 0⟩
  (st.bestMatch, st.bestReplacement, st.bestLength)

/-- Python truthiness of the returned `match` (line 74): `None` and the
empty string are falsy. -/
def strTruthy : Option (List Char) → Bool
  | none => false
  | some s => !s.isEmpty

/-- The scan loop of `convert` (lines 68–81) with explicit fuel.  On a truthy
match, append the replacement and advance by the matched length; otherwise
append the single character at `pos` and advance by one. -/
def convertGo (dictionary : Dict) (text : List Char) : Nat → Nat → List (List Char)
  | _, 0 => []
  | pos, fuel + 1 =>
    if pos < text.length then
      let fbm := find_best_match text pos dictionary
      if strTruthy fbm.1 then
        fbm.2.1.getD [] :: convertGo dictionary text (pos + fbm.2.2) fuel
      else
        [text.getD pos ' '] :: convertGo dictionary text (pos + 1) fuel
    else []

/-- `Converter.convert` (lines 60–81): select the directional index from the
mode string (`t2c` is the forward direction, `c2t` the reverse one), raise
on any other mode, then run the scan loop and join the appended pieces.
The loop gets `text.length` fuel, which `convertGo_fuel_irrelevant` below
shows is always enough. -/
def convert (store : Store) (text : List Char) (mode : String) :
    Except ConvError (List Char) :=
  if mode = "t2c" then
    .ok (List.flatten (convertGo store.tw_to_zh text 0 text.length))
  else if mode = "c2t" then
    .ok (List.flatten (convertGo store.zh_to_tw text 0 text.length))
  else .error .unsupportedDirection

end TaigiCC

namespace TaigiCC

/-- Decidable equality of `Except` results, so that concrete runs of the
converter can be checked by `decide`. -/
instance {ε α : Type} [DecidableEq ε] [DecidableEq α] : DecidableEq (Except ε α) := fun a b =>
  match a, b with
  | .error e, .error f =>
    if h : e = f then isTrue (by rw [h]) else isFalse (fun hh => h (by injection hh))
  | .ok x, .ok y =>
    if h : x = y then isTrue (by rw [h]) else isFalse (fun hh => h (by injection hh))
  | .error _, .ok _ => isFalse (fun hh => by injection hh)
  | .ok _, .error _ => isFalse (fun hh => by injection hh)

/-- The scorer as §4.2 of the specification words it:
`score = char_count(surface) * 0.1 + base_weight`. -/
def score_model (surface : List Char) (base_weight : ℚ) : ℚ :=
  (surface.length : ℚ) * 0.1 + base_weight

/-- C6: for every surface string and base weight the scorer returns exactly
`char_count(surface) * 0.1 + base_weight`, counting logical characters.
It is a total Lean function, hence pure, deterministic and non-failing. -/
theorem claim6_scorer_exact (surface : List Char) (base_weight : ℚ) :
    calculate_weight surface base_weight = score_model surface base_weight := rfl

/-- C1: with entries `"ab" ↦ ("X", 1.0)` and `"a" ↦ ("Y", 5.0)`, converting
`"ab"` forward picks the single-character match (score `5.1 > 1.2`) and
passes `'b'` through, giving `"Yb"`. -/
theorem claim1_weight_overrides_length :
    ∃ st, build [⟨some "ab".data, some "X".data, some 1⟩,
                 ⟨some "a".data, some "Y".data, some 5⟩] = .ok st ∧
      convert st "ab".data "t2c" = .ok "Yb".data := by
  refine ⟨_, rfl, ?_⟩
  with_unfolding_all decide

/-! ### Helper lemmas -/

/-- Fold preservation: an invariant preserved by every step of a fold holds
of the fold's result. -/
theorem foldl_preserve {α β : Type} {P : α → Prop} {f : α → β → α} {l : List β}
    (h : ∀ a b, b ∈ l → P a → P (f a b)) {a : α} (ha : P a) : P (l.foldl f a) := by
  induction l generalizing a with
  | nil => exact ha
  | cons x xs ih =>
    exact ih (fun a b hb => h a b (List.mem_cons_of_mem _ hb)) (h a x (List.mem_cons_self _ _) ha)

/-- Folds of pointwise-equal step functions agree. -/
theorem foldl_congr_mem {α β : Type} {f g : α → β → α} {l : List β}
    (h : ∀ a b, b ∈ l → f a b = g a b) (a : α) : l.foldl f a = l.foldl g a := by
  induction l generalizing a with
  | nil => rfl
  | cons x xs ih =>
    rw [List.foldl_cons, List.foldl_cons, h a x (List.mem_cons_self _ _)]
    exact ih (fun a b hb => h a b (List.mem_cons_of_mem _ hb)) _

theorem take_ne_nil_of_ne_nil {l : List Char} {n : Nat} (hn : 1 ≤ n) (hl : l ≠ []) :
    l.take n ≠ [] := by
  cases l with
  | nil => exact absurd rfl hl
  | cons a l =>
    cases n with
    | zero => exact absurd hn (by simp)
    | succ n => simp [List.take]

theorem flatten_map_singleton (l : List Char) : (l.map (fun c => [c])).flatten = l := by
  induction l with
  | nil => rfl
  | cons a l ih => simp [ih]

/-- A list of nonempty lists has at least as many characters in total as it
has elements. -/
theorem length_le_flatten_length {l : List (List Char)} (h : ∀ s ∈ l, s ≠ []) :
    l.length ≤ l.flatten.length := by
  induction l with
  | nil => simp
  | cons s rest ih =>
    have hs : 1 ≤ s.length :=
      Nat.one_le_iff_ne_zero.mpr fun hz =>
        h s (List.mem_cons_self _ _) (List.length_eq_zero.mp hz)
    have hr := ih fun t ht => h t (List.mem_cons_of_mem _ ht)
    simp only [List.length_cons, List.flatten_cons, List.length_append]
    omega

theorem strTruthy_isSome {o : Option (List Char)} (h : strTruthy o = true) :
    o.isSome = true := by
  cases o with
  | none => exact absurd h (by simp [strTruthy])
  | some s => rfl

/-! ### The scan of an empty index -/

theorem lengthStep_nil (text : List Char) (pos : Nat) (st : BestState) (length : Nat) :
    lengthStep text pos [] st length = st := rfl

theorem foldl_lengthStep_nil (text : List Char) (pos : Nat) (l : List Nat) (st : BestState) :
    l.foldl (lengthStep text pos []) st = st := by
  induction l generalizing st with
  | nil => rfl
  | cons a l ih => rw [List.foldl_cons, lengthStep_nil]; exact ih st

theorem find_best_match_nil (text : List Char) (pos : Nat) :
    find_best_match text pos [] = (none, none, 0) := by
  unfold find_best_match
  rw [foldl_lengthStep_nil]

theorem convertGo_nil (text : List Char) :
    ∀ fuel pos, text.length - pos ≤ fuel →
      convertGo [] text pos fuel = (text.drop pos).map (fun c => [c]) := by
  intro fuel
  induction fuel with
  | zero =>
    intro pos h
    have hle : text.length ≤ pos := by omega
    rw [List.drop_eq_nil_iff.mpr hle]
    rfl
  | succ fuel ih =>
    intro pos h
    by_cases hp : pos < text.length
    · rw [convertGo, if_pos hp]
      simp only [find_best_match_nil, strTruthy, Bool.false_eq_true, if_false]
      rw [ih (pos + 1) (by omega)]
      rw [List.drop_eq_getElem_cons hp, List.map_cons, List.getD_eq_getElem text ' ' hp]
    · rw [convertGo, if_neg hp]
      rw [List.drop_eq_nil_iff.mpr (by omega)]
      rfl

/-! ### Further claims -/

/-- C2: a candidate replaces the running best only on a strictly greater
score, so an equal-score candidate seen later is discarded (first-seen
wins); concretely, with `"a" ↦ [("Y1", 0.0), ("Y2", 0.0)]` the conversion
of `"a"` yields `"Y1"`. -/
theorem claim2_first_seen_tie_break :
    (∀ (substring : List Char) (length : Nat) (st : BestState) (w : ℚ)
        (rw : List Char × ℚ), st.bestWeight = some w →
        calculate_weight substring rw.2 ≤ w →
        candStep substring length st rw = st)
    ∧ (∃ st, build [⟨some "a".data, some "Y1".data, some 0⟩,
                    ⟨some "a".data, some "Y2".data, some 0⟩] = .ok st ∧
        convert st "a".data "t2c" = .ok "Y1".data) := by
  constructor
  · intro substring length st w rw h1 h2
    have hlt : ¬ (w < calculate_weight substring rw.2) := not_lt.mpr h2
    simp [candStep, gtBest, h1, hlt]
  · refine ⟨_, rfl, ?_⟩
    with_unfolding_all decide

/-- Witness for C2: with best weight `0.1` already recorded, an equal-score
candidate (`score("a", 0.0) = 0.1`) leaves the state unchanged. -/
theorem claim2_witness :
    candStep ['a'] 1 ⟨some ['a'], some ['Y', '1'], some (0.1 : ℚ), 1⟩ (['Y', '2'], 0)
      = ⟨some ['a'], some ['Y', '1'], some (0.1 : ℚ), 1⟩ :=
  claim2_first_seen_tie_break.1 ['a'] 1 _ 0.1 (['Y', '2'], 0) rfl
    (by with_unfolding_all decide)

/-- C4: a mode other than the two recognized ones makes `convert` fail with
the unsupported-direction error and no output; the two recognized modes
always produce an output. -/
theorem claim4_unsupported_direction (store : Store) (text : List Char) (mode : String) :
    (mode ≠ "t2c" → mode ≠ "c2t" → convert store text mode = .error .unsupportedDirection)
    ∧ (mode = "t2c" ∨ mode = "c2t" → ∃ out, convert store text mode = .ok out) := by
  constructor
  · intro h1 h2
    rw [convert, if_neg h1, if_neg h2]
  · rintro (h | h) <;> subst h
    · exact ⟨_, by rw [convert, if_pos rfl]⟩
    · exact ⟨_, by rw [convert, if_neg (by decide), if_pos rfl]⟩

/-- Witness for C4: the mode `"zzz"` is rejected, the mode `"t2c"` succeeds. -/
theorem claim4_witness :
    convert ⟨[], []⟩ ['a'] "zzz" = .error .unsupportedDirection
    ∧ ∃ out, convert ⟨[], []⟩ ['a'] "t2c" = .ok out :=
  ⟨(claim4_unsupported_direction ⟨[], []⟩ ['a'] "zzz").1 (by decide) (by decide),
   (claim4_unsupported_direction ⟨[], []⟩ ['a'] "t2c").2 (Or.inl rfl)⟩

/-- C8: with an empty dictionary, conversion in either valid direction is the
identity: every character is passed through unchanged. -/
theorem claim8_empty_dict_identity (text : List Char) (mode : String)
    (h : mode = "t2c" ∨ mode = "c2t") :
    convert ⟨[], []⟩ text mode = .ok text := by
  have hgo : convertGo [] text 0 text.length = text.map (fun c => [c]) := by
    rw [convertGo_nil text text.length 0 (by omega)]
    rw [List.drop_zero]
  rcases h with h | h <;> subst h
  · rw [convert, if_pos rfl, hgo, flatten_map_singleton]
  · rw [convert, if_neg (by decide), if_pos rfl, hgo, flatten_map_singleton]

/-- Witness for C8: converting `"ab"` with the empty dictionary returns
`"ab"`. -/
theorem claim8_witness : convert ⟨[], []⟩ "ab".data "t2c" = .ok "ab".data :=
  claim8_empty_dict_identity "ab".data "t2c" (Or.inl rfl)

/-! ### Invariants of the best-match fold -/

/-- Any recorded best match has matched length at least one. -/
def LengthInv (st : BestState) : Prop := st.bestMatch.isSome = true → 1 ≤ st.bestLength

theorem candStep_lengthInv {substring : List Char} {length : Nat} {st : BestState}
    {rw : List Char × ℚ} (hl : 1 ≤ length) (h : LengthInv st) :
    LengthInv (candStep substring length st rw) := by
  simp only [candStep]
  split
  · exact fun _ => hl
  · exact h

theorem lengthStep_lengthInv {text : List Char} {pos : Nat} {dictionary : Dict}
    {st : BestState} {length : Nat} (hl : 1 ≤ length) (h : LengthInv st) :
    LengthInv (lengthStep text pos dictionary st length) := by
  simp only [lengthStep]
  split
  · exact h
  · exact foldl_preserve (fun st rw _ h' => candStep_lengthInv hl h') h

theorem find_best_match_lengthInv (text : List Char) (pos : Nat) (dictionary : Dict) :
    (find_best_match text pos dictionary).1.isSome = true →
    1 ≤ (find_best_match text pos dictionary).2.2 := by
  unfold find_best_match
  dsimp only
  exact foldl_preserve
    (fun st len hmem h => lengthStep_lengthInv (List.mem_range'_1.mp hmem).1 h)
    (fun hh => by simp at hh)

/-! ### Fuel irrelevance: the scan loop terminates -/

/-- The loop result does not depend on the fuel once the fuel covers the
number of remaining characters: the scan position advances by at least one
character every iteration, so the loop of `convert` always terminates. -/
theorem convertGo_fuel_irrelevant (dictionary : Dict) (text : List Char) :
    ∀ fuel₁ fuel₂ pos, text.length - pos ≤ fuel₁ → text.length - pos ≤ fuel₂ →
      convertGo dictionary text pos fuel₁ = convertGo dictionary text pos fuel₂ := by
  intro fuel₁
  induction fuel₁ with
  | zero =>
    intro fuel₂ pos h1 h2
    have hp : ¬ pos < text.length := by omega
    cases fuel₂ with
    | zero => rfl
    | succ f₂ => rw [convertGo, convertGo, if_neg hp]
  | succ f ih =>
    intro fuel₂ pos h1 h2
    cases fuel₂ with
    | zero =>
      have hp : ¬ pos < text.length := by omega
      rw [convertGo, convertGo, if_neg hp]
    | succ f₂ =>
      by_cases hp : pos < text.length
      · rw [convertGo, convertGo, if_pos hp, if_pos hp]
        dsimp only
        by_cases hm : strTruthy (find_best_match text pos dictionary).1 = true
        · have hL : 1 ≤ (find_best_match text pos dictionary).2.2 :=
            find_best_match_lengthInv text pos dictionary (strTruthy_isSome hm)
          rw [if_pos hm, if_pos hm,
            ih f₂ (pos + (find_best_match text pos dictionary).2.2) (by omega) (by omega)]
        · rw [if_neg hm, if_neg hm, ih f₂ (pos + 1) (by omega) (by omega)]
      · rw [convertGo, convertGo, if_neg hp, if_neg hp]

/-! ### Nonempty replacements give nonempty output segments -/

/-- Every candidate replacement recorded in the index is a nonempty string. -/
def ReplacementsNonempty (dictionary : Dict) : Prop :=
  ∀ k cands, dictLookup dictionary k = some cands → ∀ rw ∈ cands, rw.1 ≠ []

/-- Any recorded best has a nonempty replacement. -/
def ReplGood (st : BestState) : Prop :=
  st.bestMatch.isSome = true → ∃ r, st.bestReplacement = some r ∧ r ≠ []

theorem candStep_replGood {substring : List Char} {length : Nat} {st : BestState}
    {rw : List Char × ℚ} (hrw : rw.1 ≠ []) (h : ReplGood st) :
    ReplGood (candStep substring length st rw) := by
  simp only [candStep]
  split
  · exact fun _ => ⟨rw.1, rfl, hrw⟩
  · exact h

theorem lengthStep_replGood {text : List Char} {pos : Nat} {dictionary : Dict}
    {st : BestState} {length : Nat}
    (hdict : ReplacementsNonempty dictionary) (h : ReplGood st) :
    ReplGood (lengthStep text pos dictionary st length) := by
  simp only [lengthStep]
  split
  · exact h
  · rename_i cands heq
    exact foldl_preserve (fun st rw hmem h' => candStep_replGood (hdict _ _ heq rw hmem) h') h

theorem find_best_match_replGood {text : List Char} {pos : Nat} {dictionary : Dict}
    (hdict : ReplacementsNonempty dictionary)
    (h : strTruthy (find_best_match text pos dictionary).1 = true) :
    (find_best_match text pos dictionary).2.1.getD [] ≠ [] := by
  unfold find_best_match at h ⊢
  dsimp only at h ⊢
  have hrg : ReplGood ((List.range' 1 (text.length - pos)).foldl
      (lengthStep text pos dictionary) ⟨none, none, none, 0⟩) :=
    foldl_preserve (fun st len _ h' => lengthStep_replGood hdict h') (fun hh => by simp at hh)
  obtain ⟨r, hr, hrne⟩ := hrg (strTruthy_isSome h)
  rw [hr]
  simpa using hrne

theorem convertGo_all_nonempty {dictionary : Dict} {text : List Char}
    (hdict : ReplacementsNonempty dictionary) :
    ∀ fuel pos, ∀ s ∈ convertGo dictionary text pos fuel, s ≠ [] := by
  intro fuel
  induction fuel with
  | zero => intro pos s hs; simp [convertGo] at hs
  | succ f ih =>
    intro pos s hs
    rw [convertGo] at hs
    by_cases hp : pos < text.length
    · rw [if_pos hp] at hs
      dsimp only at hs
      by_cases hm : strTruthy (find_best_match text pos dictionary).1 = true
      · rw [if_pos hm] at hs
        rcases List.mem_cons.mp hs with h | h
        · rw [h]; exact find_best_match_replGood hdict hm
        · exact ih _ _ h
      · rw [if_neg hm] at hs
        rcases List.mem_cons.mp hs with h | h
        · rw [h]; simp
        · exact ih _ _ h
    · rw [if_neg hp] at hs; simp at hs

/-- C3 (amended): the scan loop's result does not depend on the fuel once it
covers the remaining characters (the loop terminates, the scan position
advancing by at least one per iteration); and — provided every candidate
replacement in the index is nonempty — the output has at least as many
characters as segments were appended.  The unconditional count statement of
the claim fails when a dictionary entry has an empty target
(`claim3_counterexample`). -/
theorem claim3_termination_output (dictionary : Dict) (text : List Char)
    (pos fuel₁ fuel₂ : Nat) :
    (text.length - pos ≤ fuel₁ → text.length - pos ≤ fuel₂ →
      convertGo dictionary text pos fuel₁ = convertGo dictionary text pos fuel₂)
    ∧ (strTruthy (find_best_match text pos dictionary).1 = true →
        1 ≤ (find_best_match text pos dictionary).2.2)
    ∧ (ReplacementsNonempty dictionary →
        (convertGo dictionary text pos fuel₁).length ≤
          (convertGo dictionary text pos fuel₁).flatten.length) :=
  ⟨convertGo_fuel_irrelevant dictionary text fuel₁ fuel₂ pos,
   fun hm => find_best_match_lengthInv text pos dictionary (strTruthy_isSome hm),
   fun hdict => length_le_flatten_length (convertGo_all_nonempty hdict fuel₁ pos)⟩

/-- Counterexample to C3 as stated: with the entry `"a" ↦ ("", 0.0)` the
conversion of `"a"` appends one segment (the empty replacement) but returns
the empty string, so the output's character count is smaller than the
number of appended segments. -/
theorem claim3_counterexample :
    convert ⟨[(['a'], [([], 0)])], []⟩ ['a'] "t2c" = .ok []
    ∧ (convertGo [(['a'], [([], 0)])] ['a'] 0 1).length = 1
    ∧ ¬ ((convertGo [(['a'], [([], 0)])] ['a'] 0 1).length ≤
          (convertGo [(['a'], [([], 0)])] ['a'] 0 1).flatten.length) := by
  with_unfolding_all decide

/-- Witness for C3: on the dictionary `"a" ↦ ("X", 0.0)` and input `"a"`, the
loop result is fuel-independent, the matched length is positive, and the
output is at least as long as the segment list. -/
theorem claim3_witness :
    convertGo [(['a'], [(['X'], 0)])] ['a'] 0 1 = convertGo [(['a'], [(['X'], 0)])] ['a'] 0 2
    ∧ 1 ≤ (find_best_match ['a'] 0 [(['a'], [(['X'], 0)])]).2.2
    ∧ (convertGo [(['a'], [(['X'], 0)])] ['a'] 0 1).length ≤
        (convertGo [(['a'], [(['X'], 0)])] ['a'] 0 1).flatten.length := by
  have hd : ReplacementsNonempty [(['a'], [(['X'], 0)])] := by
    intro k cands h p hmem
    simp only [dictLookup, List.lookup] at h
    split at h
    · cases h
      rw [List.mem_singleton.mp hmem]
      simp
    · cases h
  have h := claim3_termination_output [(['a'], [(['X'], 0)])] ['a'] 0 1 2
  exact ⟨h.1 (by decide) (by decide),
         h.2.1 (by with_unfolding_all decide),
         h.2.2 hd⟩

/-! ### A key at the scan position forces a match -/

/-- A best match is recorded and truthy. -/
def Found (st : BestState) : Prop := strTruthy st.bestMatch = true

/-- Once any weight is recorded, a truthy best match is recorded with it. -/
def FoundInv (st : BestState) : Prop := st.bestWeight.isSome = true → strTruthy st.bestMatch = true

theorem strTruthy_some {s : List Char} (hs : s ≠ []) : strTruthy (some s) = true := by
  cases s with
  | nil => exact absurd rfl hs
  | cons a l => rfl

theorem candStep_found {substring : List Char} {length : Nat} {st : BestState}
    {rw : List Char × ℚ} (hsub : substring ≠ []) (h : Found st) :
    Found (candStep substring length st rw) := by
  simp only [Found, candStep]
  split
  · exact strTruthy_some hsub
  · exact h

theorem candStep_foundInv {substring : List Char} {length : Nat} {st : BestState}
    {rw : List Char × ℚ} (hsub : substring ≠ []) (h : FoundInv st) :
    FoundInv (candStep substring length st rw) := by
  simp only [FoundInv, candStep]
  split
  · exact fun _ => strTruthy_some hsub
  · exact h

theorem lengthStep_found {text : List Char} {pos : Nat} {dictionary : Dict}
    {st : BestState} {length : Nat}
    (hsub : (text.drop pos).take length ≠ []) (h : Found st) :
    Found (lengthStep text pos dictionary st length) := by
  simp only [lengthStep]
  split
  · exact h
  · exact foldl_preserve (fun st rw _ h' => candStep_found hsub h') h

theorem lengthStep_foundInv {text : List Char} {pos : Nat} {dictionary : Dict}
    {st : BestState} {length : Nat}
    (hsub : (text.drop pos).take length ≠ []) (h : FoundInv st) :
    FoundInv (lengthStep text pos dictionary st length) := by
  simp only [lengthStep]
  split
  · exact h
  · exact foldl_preserve (fun st rw _ h' => candStep_foundInv hsub h') h

/-- Processing a length whose substring is a key with a nonempty candidate
list always records a truthy best: the initial `-inf` weight loses to the
first candidate, whatever its score. -/
theorem lengthStep_found_of_key {text : List Char} {pos : Nat} {dictionary : Dict}
    {st : BestState} {length : Nat} {cands : Candidates}
    (hsub : (text.drop pos).take length ≠ [])
    (hkey : dictLookup dictionary ((text.drop pos).take length) = some cands)
    (hne : cands ≠ []) (h : FoundInv st) :
    Found (lengthStep text pos dictionary st length) := by
  simp only [lengthStep]
  rw [hkey]
  dsimp only
  cases cands with
  | nil => exact absurd rfl hne
  | cons c cs =>
    rw [List.foldl_cons]
    cases hbw : st.bestWeight with
    | none =>
      have h1 : Found (candStep ((text.drop pos).take length) length st c) := by
        simp only [Found, candStep, gtBest, hbw]
        exact strTruthy_some hsub
      exact foldl_preserve (fun st rw _ h' => candStep_found hsub h') h1
    | some w =>
      have h0 : Found st := h (by rw [hbw]; rfl)
      exact foldl_preserve (fun st rw _ h' => candStep_found hsub h')
        (candStep_found hsub h0)

theorem find_best_match_found {text : List Char} {pos : Nat} {dictionary : Dict}
    {L : Nat} {cands : Candidates}
    (hpos : pos < text.length) (hL1 : 1 ≤ L) (hL2 : L ≤ text.length - pos)
    (hkey : dictLookup dictionary ((text.drop pos).take L) = some cands)
    (hne : cands ≠ []) :
    strTruthy (find_best_match text pos dictionary).1 = true := by
  unfold find_best_match
  dsimp only
  have hmem : L ∈ List.range' 1 (text.length - pos) := List.mem_range'_1.mpr ⟨hL1, by omega⟩
  obtain ⟨s, t, hst⟩ := List.append_of_mem hmem
  have hsub_all : ∀ length : Nat, length ∈ List.range' 1 (text.length - pos) →
      (text.drop pos).take length ≠ [] := by
    intro length hlen
    have h1 : 1 ≤ length := (List.mem_range'_1.mp hlen).1
    have hdrop : text.drop pos ≠ [] := by
      intro hd
      rw [List.drop_eq_nil_iff] at hd
      omega
    exact take_ne_nil_of_ne_nil h1 hdrop
  have hs_mem : ∀ b ∈ s, b ∈ List.range' 1 (text.length - pos) := by
    intro b hb; rw [hst]; exact List.mem_append_left _ hb
  have ht_mem : ∀ b ∈ t, b ∈ List.range' 1 (text.length - pos) := by
    intro b hb; rw [hst]; exact List.mem_append_right _ (List.mem_cons_of_mem _ hb)
  rw [hst, List.foldl_append, List.foldl_cons]
  have hInv : FoundInv (s.foldl (lengthStep text pos dictionary) ⟨none, none, none, 0⟩) :=
    foldl_preserve (fun st b hb h' => lengthStep_foundInv (hsub_all b (hs_mem b hb)) h')
      (fun hh => by simp at hh)
  have hFound : Found (lengthStep text pos dictionary
      (s.foldl (lengthStep text pos dictionary) ⟨none, none, none, 0⟩) L) :=
    lengthStep_found_of_key (hsub_all L hmem) hkey hne hInv
  exact foldl_preserve (fun st b hb h' => lengthStep_found (hsub_all b (ht_mem b hb)) h') hFound

/-- C9: whenever some substring starting at the scan position is a key of the
selected index, the scanner records a truthy best match — whatever the
candidates' scores, negative included — and the scan step consumes that
match instead of passing a character through. -/
theorem claim9_key_forces_match (text : List Char) (pos : Nat) (dictionary : Dict)
    (L : Nat) (cands : Candidates) (fuel : Nat)
    (hpos : pos < text.length) (hL1 : 1 ≤ L) (hL2 : L ≤ text.length - pos)
    (hkey : dictLookup dictionary ((text.drop pos).take L) = some cands)
    (hne : cands ≠ []) :
    strTruthy (find_best_match text pos dictionary).1 = true
    ∧ convertGo dictionary text pos (fuel + 1) =
        (find_best_match text pos dictionary).2.1.getD [] ::
          convertGo dictionary text (pos + (find_best_match text pos dictionary).2.2) fuel := by
  have hfound := find_best_match_found hpos hL1 hL2 hkey hne
  refine ⟨hfound, ?_⟩
  rw [convertGo, if_pos hpos]
  dsimp only
  rw [if_pos hfound]

/-- Witness for C9: the single entry `"a" ↦ ("X", -5.0)` has a negative
score, yet converting `"a"` consumes the match rather than passing `'a'`
through. -/
theorem claim9_witness :
    strTruthy (find_best_match ['a'] 0 [(['a'], [(['X'], -5)])]).1 = true
    ∧ convertGo [(['a'], [(['X'], -5)])] ['a'] 0 1 =
        (find_best_match ['a'] 0 [(['a'], [(['X'], -5)])]).2.1.getD [] ::
          convertGo [(['a'], [(['X'], -5)])] ['a']
            (0 + (find_best_match ['a'] 0 [(['a'], [(['X'], -5)])]).2.2) 0 :=
  claim9_key_forces_match ['a'] 0 [(['a'], [(['X'], -5)])] 1 [(['X'], -5)] 0
    (by decide) (by decide) (by decide)
    (by with_unfolding_all decide) (by with_unfolding_all decide)

/-! ### Loading: malformed entries and the result guarantee -/

theorem buildGo_error : ∀ (entries : List Entry) (d1 d2 : Dict),
    (∃ e ∈ entries, e.tw = none ∨ e.cn = none) →
    buildGo entries d1 d2 = .error .malformedEntry := by
  intro entries
  induction entries with
  | nil =>
    intro d1 d2 h
    obtain ⟨e, he, _⟩ := h
    simp at he
  | cons e rest ih =>
    intro d1 d2 h
    obtain ⟨e', he', hbad⟩ := h
    rcases List.mem_cons.mp he' with rfl | hmem
    · cases htw : e'.tw with
      | none => simp [buildGo, htw]
      | some tw =>
        cases hcn : e'.cn with
        | none => simp [buildGo, htw, hcn]
        | some cn =>
          rcases hbad with hb | hb
          · rw [htw] at hb; cases hb
          · rw [hcn] at hb; cases hb
    · cases htw : e.tw with
      | none => simp [buildGo, htw]
      | some tw =>
        cases hcn : e.cn with
        | none => simp [buildGo, htw, hcn]
        | some cn =>
          simp only [buildGo, htw, hcn]
          exact ih _ _ ⟨e', hmem, hbad⟩

/-- C5: any entry list in which some entry lacks the source-text or the
target-text field makes the load fail with the malformed-entry error; no
store is produced. -/
theorem claim5_malformed_entry (entries : List Entry)
    (h : ∃ e ∈ entries, e.tw = none ∨ e.cn = none) :
    build entries = .error .malformedEntry :=
  buildGo_error entries [] [] h

/-- Witness for C5: an entry with a source text but no target text fails the
load. -/
theorem claim5_witness :
    build [⟨some ['a'], none, none⟩] = .error .malformedEntry :=
  claim5_malformed_entry [⟨some ['a'], none, none⟩]
    ⟨⟨some ['a'], none, none⟩, List.mem_cons_self _ _, Or.inr rfl⟩

/-! ### Lookup after insertion -/

theorem dictLookup_insert_self (d : Dict) (k : List Char) (v : List Char × ℚ) :
    dictLookup (dictInsert d k v) k = some ((dictLookup d k).getD [] ++ [v]) := by
  induction d with
  | nil => simp [dictInsert, dictLookup, List.lookup]
  | cons p rest ih =>
    obtain ⟨k', vs⟩ := p
    by_cases hk : k' = k
    · subst hk
      simp [dictInsert, dictLookup, List.lookup]
    · have hbeq : (k == k') = false := beq_eq_false_iff_ne.mpr fun h => hk h.symm
      simp only [dictInsert, if_neg hk]
      simp only [dictLookup] at ih
      simp [dictLookup, List.lookup, hbeq, ih]

theorem dictLookup_insert_ne (d : Dict) {k k' : List Char} (v : List Char × ℚ)
    (h : k' ≠ k) : dictLookup (dictInsert d k v) k' = dictLookup d k' := by
  induction d with
  | nil =>
    have hbeq : (k' == k) = false := beq_eq_false_iff_ne.mpr h
    simp [dictInsert, dictLookup, List.lookup, hbeq]
  | cons p rest ih =>
    obtain ⟨k₀, vs⟩ := p
    by_cases hk : k₀ = k
    · subst hk
      have hbeq : (k' == k₀) = false := beq_eq_false_iff_ne.mpr h
      simp [dictInsert, dictLookup, List.lookup, hbeq]
    · simp only [dictInsert, if_neg hk]
      simp only [dictLookup] at ih
      cases hbeq : (k' == k₀) <;> simp [dictLookup, List.lookup, hbeq, ih]

/-- The pair `v` is among the candidates recorded for the key `k`. -/
def hasPair (d : Dict) (k : List Char) (v : List Char × ℚ) : Prop :=
  ∃ cands, dictLookup d k = some cands ∧ v ∈ cands

theorem hasPair_insert_self (d : Dict) (k : List Char) (v : List Char × ℚ) :
    hasPair (dictInsert d k v) k v :=
  ⟨_, dictLookup_insert_self d k v, List.mem_append_right _ (List.mem_singleton_self _)⟩

theorem hasPair_insert_mono {d : Dict} {k' : List Char} {v' : List Char × ℚ}
    (k : List Char) (v : List Char × ℚ) (h : hasPair d k' v') :
    hasPair (dictInsert d k v) k' v' := by
  obtain ⟨cands, hc, hv⟩ := h
  by_cases hk : k' = k
  · subst hk
    refine ⟨_, dictLookup_insert_self d k' v, ?_⟩
    rw [hc]
    exact List.mem_append_left _ hv
  · exact ⟨cands, by rw [dictLookup_insert_ne d v hk, hc], hv⟩

/-- Every key of the index maps to a nonempty candidate list. -/
def LookupNonempty (d : Dict) : Prop :=
  ∀ k cands, dictLookup d k = some cands → cands ≠ []

theorem lookupNonempty_nil : LookupNonempty [] := by
  intro k cands h
  simp [dictLookup] at h

theorem lookupNonempty_insert {d : Dict} (k : List Char) (v : List Char × ℚ)
    (h : LookupNonempty d) : LookupNonempty (dictInsert d k v) := by
  intro k' cands hc
  by_cases hk : k' = k
  · subst hk
    rw [dictLookup_insert_self] at hc
    injection hc with hc
    rw [← hc]
    simp
  · rw [dictLookup_insert_ne d v hk] at hc
    exact h k' cands hc

theorem buildGo_ok : ∀ (entries : List Entry) (d1 d2 : Dict) (st : Store),
    buildGo entries d1 d2 = .ok st →
    (∀ k v, hasPair d1 k v → hasPair st.tw_to_zh k v)
    ∧ (∀ k v, hasPair d2 k v → hasPair st.zh_to_tw k v)
    ∧ (∀ e ∈ entries, ∀ tw cn, e.tw = some tw → e.cn = some cn →
        hasPair st.tw_to_zh tw (cn, e.weight.getD 0)
        ∧ hasPair st.zh_to_tw cn (tw, e.weight.getD 0))
    ∧ (LookupNonempty d1 → LookupNonempty st.tw_to_zh)
    ∧ (LookupNonempty d2 → LookupNonempty st.zh_to_tw) := by
  intro entries
  induction entries with
  | nil =>
    intro d1 d2 st h
    simp only [buildGo] at h
    injection h with h
    subst h
    exact ⟨fun k v hv => hv, fun k v hv => hv, by simp, id, id⟩
  | cons e rest ih =>
    intro d1 d2 st h
    cases htw : e.tw with
    | none => simp [buildGo, htw] at h
    | some tw =>
      cases hcn : e.cn with
      | none => simp [buildGo, htw, hcn] at h
      | some cn =>
        simp only [buildGo, htw, hcn] at h
        obtain ⟨m1, m2, hrest, n1, n2⟩ := ih _ _ _ h
        refine ⟨fun k v hv => m1 k v (hasPair_insert_mono _ _ hv),
                fun k v hv => m2 k v (hasPair_insert_mono _ _ hv),
                ?_,
                fun hn => n1 (lookupNonempty_insert _ _ hn),
                fun hn => n2 (lookupNonempty_insert _ _ hn)⟩
        intro e' he' tw' cn' htw' hcn'
        rcases List.mem_cons.mp he' with rfl | hmem
        · rw [htw] at htw'; injection htw' with htw'; subst htw'
          rw [hcn] at hcn'; injection hcn' with hcn'; subst hcn'
          exact ⟨m1 _ _ (hasPair_insert_self _ _ _),
                 m2 _ _ (hasPair_insert_self _ _ _)⟩
        · exact hrest e' hmem tw' cn' htw' hcn'

/-- C7: a successful build records, for every entry, its target and weight
(default `0.0` when absent) among the candidates of its source key in the
forward index; and every key of either index has a nonempty candidate
list. -/
theorem claim7_build_guarantee (entries : List Entry) (st : Store)
    (h : build entries = .ok st) :
    (∀ e ∈ entries, ∀ tw cn, e.tw = some tw → e.cn = some cn →
      ∃ cands, dictLookup st.tw_to_zh tw = some cands ∧ (cn, e.weight.getD 0) ∈ cands)
    ∧ (∀ k cands, dictLookup st.tw_to_zh k = some cands → cands ≠ [])
    ∧ (∀ k cands, dictLookup st.zh_to_tw k = some cands → cands ≠ []) := by
  obtain ⟨m1, m2, hrest, n1, n2⟩ := buildGo_ok entries [] [] st h
  exact ⟨fun e he tw cn htw hcn => (hrest e he tw cn htw hcn).1,
         n1 lookupNonempty_nil, n2 lookupNonempty_nil⟩

/-- Witness for C7: the single entry `"a" ↦ "X"` without a weight is found
in the built forward index with weight `0`. -/
theorem claim7_witness :
    ∃ cands, dictLookup (Store.tw_to_zh ⟨[(['a'], [(['X'], 0)])], [(['X'], [(['a'], 0)])]⟩) ['a']
      = some cands ∧ (['X'], (0 : ℚ)) ∈ cands :=
  (claim7_build_guarantee [⟨some ['a'], some ['X'], none⟩]
      ⟨[(['a'], [(['X'], 0)])], [(['X'], [(['a'], 0)])]⟩ rfl).1
    _ (List.mem_cons_self _ _) ['a'] ['X'] rfl rfl

/-! ### Entries with an empty source never influence a conversion -/

/-- Drop every index entry stored under the empty-string key. -/
def eraseEmptyKey : Dict → Dict
  | [] => []
  | (k, vs) :: rest =>
    if k.isEmpty then eraseEmptyKey rest else (k, vs) :: eraseEmptyKey rest

theorem dictLookup_eraseEmptyKey (d : Dict) {k : List Char} (hk : k ≠ []) :
    dictLookup (eraseEmptyKey d) k = dictLookup d k := by
  induction d with
  | nil => rfl
  | cons p rest ih =>
    obtain ⟨k', vs⟩ := p
    by_cases hke : k' = []
    · subst hke
      have hbeq : (k == ([] : List Char)) = false := beq_eq_false_iff_ne.mpr hk
      simp only [dictLookup] at ih
      simp [eraseEmptyKey, dictLookup, List.lookup, hbeq, ih]
    · have hne : k'.isEmpty = false := by
        cases k' with
        | nil => exact absurd rfl hke
        | cons a l => rfl
      simp only [eraseEmptyKey, hne, Bool.false_eq_true, if_false]
      simp only [dictLookup] at ih
      cases hbeq : (k == k') <;> simp [dictLookup, List.lookup, hbeq, ih]

theorem find_best_match_eraseEmptyKey (text : List Char) (pos : Nat) (dictionary : Dict) :
    find_best_match text pos (eraseEmptyKey dictionary) = find_best_match text pos dictionary := by
  unfold find_best_match
  rcases Nat.lt_or_ge pos text.length with hp | hp
  · have hstep : ∀ (st : BestState) (length : Nat),
        length ∈ List.range' 1 (text.length - pos) →
        lengthStep text pos (eraseEmptyKey dictionary) st length
          = lengthStep text pos dictionary st length := by
      intro st length hlen
      have h1 : 1 ≤ length := (List.mem_range'_1.mp hlen).1
      have hdrop : text.drop pos ≠ [] := by
        intro hd
        rw [List.drop_eq_nil_iff] at hd
        omega
      have hsub : (text.drop pos).take length ≠ [] := take_ne_nil_of_ne_nil h1 hdrop
      simp only [lengthStep]
      rw [dictLookup_eraseEmptyKey dictionary hsub]
    rw [foldl_congr_mem hstep]
  · have h0 : text.length - pos = 0 := by omega
    rw [h0]
    rfl

theorem convertGo_eraseEmptyKey (dictionary : Dict) (text : List Char) :
    ∀ fuel pos, convertGo (eraseEmptyKey dictionary) text pos fuel
      = convertGo dictionary text pos fuel := by
  intro fuel
  induction fuel with
  | zero => intro pos; rfl
  | succ f ih =>
    intro pos
    rw [convertGo, convertGo]
    by_cases hp : pos < text.length
    · rw [if_pos hp, if_pos hp]
      dsimp only
      rw [find_best_match_eraseEmptyKey]
      by_cases hm : strTruthy (find_best_match text pos dictionary).1 = true
      · rw [if_pos hm, if_pos hm, ih]
      · rw [if_neg hm, if_neg hm, ih]
    · rw [if_neg hp, if_neg hp]

/-- Counterexample to C10 as stated: the entry with empty source form and
target `"X"` does affect conversion output.  It is also recorded in the
reverse index as the empty replacement candidate under the key `"X"`, so
converting `"X"` in the reverse direction returns `""` where the empty
store returns `"X"` unchanged. -/
theorem claim10_counterexample :
    build [⟨some [], some ['X'], some 0⟩]
      = .ok ⟨[([], [(['X'], 0)])], [(['X'], [([], 0)])]⟩
    ∧ convert ⟨[([], [(['X'], 0)])], [(['X'], [([], 0)])]⟩ ['X'] "c2t" = .ok []
    ∧ convert ⟨[], []⟩ ['X'] "c2t" = .ok ['X']
    ∧ convert ⟨[([], [(['X'], 0)])], [(['X'], [([], 0)])]⟩ ['X'] "c2t"
        ≠ convert ⟨[], []⟩ ['X'] "c2t" := by
  refine ⟨rfl, ?_, ?_, ?_⟩ <;> with_unfolding_all decide

/-- C10 (amended): an entry whose source is the empty string is stored under
the empty-string key of the forward index, and that key is never matched:
candidate substring lengths start at one, so removing every empty-string
key from either index never changes any conversion result.  The entry can
still affect output through the reverse index, where its empty source form
is a replacement candidate under its target key
(`claim10_counterexample`). -/
theorem claim10_empty_source_inert :
    (∀ (entries : List Entry) (st : Store) (e : Entry) (cn : List Char),
        build entries = .ok st → e ∈ entries → e.tw = some [] → e.cn = some cn →
        ∃ cands, dictLookup st.tw_to_zh [] = some cands ∧ (cn, e.weight.getD 0) ∈ cands)
    ∧ (∀ (d1 d2 : Dict) (text : List Char) (mode : String),
        convert ⟨eraseEmptyKey d1, eraseEmptyKey d2⟩ text mode = convert ⟨d1, d2⟩ text mode) := by
  constructor
  · intro entries st e cn h he htw hcn
    obtain ⟨_, _, hrest, _, _⟩ := buildGo_ok entries [] [] st h
    exact (hrest e he [] cn htw hcn).1
  · intro d1 d2 text mode
    simp only [convert]
    by_cases h1 : mode = "t2c"
    · rw [if_pos h1, if_pos h1]
      rw [convertGo_eraseEmptyKey]
    · rw [if_neg h1, if_neg h1]
      by_cases h2 : mode = "c2t"
      · rw [if_pos h2, if_pos h2]
        rw [convertGo_eraseEmptyKey]
      · rw [if_neg h2, if_neg h2]

/-- Witness for C10: the entry with empty source lands under the empty key,
and erasing empty keys does not change the conversion of `"a"`. -/
theorem claim10_witness :
    (∃ cands, dictLookup (Store.tw_to_zh ⟨[([], [(['X'], 0)])], [(['X'], [([], 0)])]⟩) []
      = some cands ∧ (['X'], (0 : ℚ)) ∈ cands)
    ∧ convert ⟨eraseEmptyKey [([], [(['X'], 0)])], eraseEmptyKey []⟩ ['a'] "t2c"
      = convert ⟨[([], [(['X'], 0)])], []⟩ ['a'] "t2c" :=
  ⟨claim10_empty_source_inert.1 [⟨some [], some ['X'], none⟩]
      ⟨[([], [(['X'], 0)])], [(['X'], [([], 0)])]⟩ ⟨some [], some ['X'], none⟩ ['X']
      rfl (List.mem_cons_self _ _) rfl rfl,
   claim10_empty_source_inert.2 [([], [(['X'], 0)])] [] ['a'] "t2c"⟩

end TaigiCC
